import Mathlib

/-!
Verification of the gemini-chat-client core (session/history management and
turn processing) against its specification.

The embedding follows `src/lib/gemini_tool.py` (class `Client`) and
`src/gemini.py` (`main`).  The in-memory chat history is a Python dict with
insertion order, holding the reserved keys `"title"` and `"history_index"`
alongside turn entries; it is modelled as an ordered association list over a
key type distinguishing Python `str` keys from Python `int` keys (JSON
serialisation turns `int` keys into their decimal strings, so both occur).
Machine integers are modelled as `Int` (Python ints are unbounded, so no
modular reduction is needed).  Fallible operations (Python statements that can
raise, such as `self.history["history_index"] += 1` on a malformed dict)
return `Option`.
-/

namespace Gemini

/-- One prompt/response exchange, the value stored under a turn key
(`gemini_tool.py` lines 126-131). -/
structure Turn where
  prompt : String
  response : String
deriving DecidableEq

/-- A Python dict key as used by the history mapping: either a `str` key
(the reserved keys, and turn keys re-read from JSON) or an `int` key
(turn keys created in memory by `update_history`). -/
inductive HKey where
  | str : String → HKey
  | int : Int → HKey
deriving DecidableEq

/-- A value stored in the history dict: the title string, the
`history_index` integer, or a turn record. -/
inductive HVal where
  | vStr : String → HVal
  | vInt : Int → HVal
  | vTurn : Turn → HVal
deriving DecidableEq

/-- The history dict, modelled as an insertion-ordered association list
(Python dicts preserve insertion order). -/
abbrev HDict := List (HKey × HVal)

/-- Python `d[k]` lookup (first, hence only, occurrence of the key). -/
def dictGet : HDict → HKey → Option HVal
  | [], _ => none
  | p :: rest, k => if p.1 = k then some p.2 else dictGet rest k

/-- Python `d[k] = v` / `d.update({k: v})`: replace the value in place if the
key exists, otherwise append the new pair at the end. -/
def dictSet : HDict → HKey → HVal → HDict
  | [], k, v => [(k, v)]
  | p :: rest, k, v => if p.1 = k then (k, v) :: rest else p :: dictSet rest k v

/-- The client state of `gemini_tool.Client`: the constructor fields
(`model`, `questions`, `context_window`, lines 21-38) and the session fields
set in `start_chat`/`load_history` (`chat_title`, `history`, `context`,
`history_index`, lines 166-169 and 77-99). -/
structure Client where
  model : String
  questions : Int
  context_window : Int
  chat_title : String
  history : HDict
  context : HDict
  history_index : Int
deriving DecidableEq

/-- `Client.__init__` (lines 21-38): stores the three configuration fields;
the session fields are not yet set (they are given inert defaults here and
are assigned by `session_start` before use, as in the source). -/
def Client.init (model : String) (questions context_window : Int) : Client :=
  { model := model, questions := questions, context_window := context_window,
    chat_title := "", history := [], context := [], history_index := 0 }

/-- The `process_response` decorator applied to `respond` (lines 40-58):
the remote call's result is `None`/empty (falsy) or carries a text; a falsy
result is mapped to the fixed sentinel, otherwise `.text` is returned. -/
def process_response : Option String → String
  | some text => text
  | none => "No response received."

/-- `Client.load_history` (lines 77-99).  `stored` is the on-disk record for
the current title: `none` when the file does not exist or is empty
(`st_size == 0`), `some h` when it holds the JSON dict `h` (all keys of a
JSON object are strings).  A fresh history gets `title` and `history_index`
inserted in that order; `context` is `list(self.history.items())`. -/
def load_history (c : Client) (stored : Option HDict) : Client :=
  match stored with
  | some h => { c with history := h, context := h }
  | none =>
    let h : HDict := [(HKey.str "title", HVal.vStr c.chat_title),
                      (HKey.str "history_index", HVal.vInt 0)]
    { c with history := h, context := h }

/-- The string `json.dump` uses for a dict key: `str` keys are written as-is,
`int` keys are written as their decimal representation. -/
def jsonKey : HKey → String
  | HKey.str s => s
  | HKey.int n => toString n

/-- `Client.save_history` (lines 101-107): the on-disk JSON record.  Values
round-trip exactly; every key becomes a string. -/
def save_history (c : Client) : HDict :=
  c.history.map (fun p => (HKey.str (jsonKey p.1), p.2))

/-- The coercion at the top of `update_history` (lines 122-123):
`if self.questions < 1: self.questions = 1`. -/
def coerceQ (q : Int) : Int := if q < 1 then 1 else q

/-- `Client.update_history` (lines 109-146).  Returns `none` when the Python
code would raise (`self.history["history_index"] += 1` on a missing or
non-integer entry), otherwise the updated client and the `"exit"` /
`"continue"` status.  The limit check compares `len(self.history) - 2`
against `self.questions + self.history_index`, where `self.history_index` is
the session-start snapshot taken in `start_chat` line 169. -/
def update_history (c : Client) (prompt response : String) : Option (Client × String) :=
  let questions : Int := coerceQ c.questions
  match dictGet c.history (HKey.str "history_index") with
  | some (HVal.vInt n) =>
    let nidx : Int := n + 1
    let h1 := dictSet c.history (HKey.str "history_index") (HVal.vInt nidx)
    let h2 := dictSet h1 (HKey.int nidx) (HVal.vTurn (Turn.mk prompt response))
    let c2 : Client :=
      { c with questions := questions, history := h2,
               context := c.context ++ [(HKey.int nidx, HVal.vTurn (Turn.mk prompt response))] }
    if ((h2.length : Int) - 2) = (questions + c.history_index)
    then some (c2, "exit") else some (c2, "continue")
  | _ => none

/-- The session setup of `start_chat` (lines 166-169): store the entered
title, load the history record, and snapshot
`self.history_index = self.history.get("history_index", 0)`.
(The snapshot default covers an absent entry; a non-integer entry would make
every later `update_history` raise and is not modelled.) -/
def session_start (c : Client) (title : String) (stored : Option HDict) : Client :=
  let c1 := load_history { c with chat_title := title } stored
  let hi : Int :=
    match dictGet c1.history (HKey.str "history_index") with
    | some (HVal.vInt n) => n
    | _ => 0
  { c1 with history_index := hi }

/-- Python `str.lower()` (character-wise lowercasing; exact for the ASCII
strings this development evaluates it on). -/
def pyLower (s : String) : String := ⟨s.data.map Char.toLower⟩

/-- Python `l[-cw:]` with an integer `cw` (line 173,
`self.context[-self.context_window:]`): for `cw > 0` the last `cw` elements,
for `cw = 0` the index is `-0 = 0` so the WHOLE list, for `cw < 0` the list
from index `-cw` on. -/
def pyTail {α : Type} (l : List α) (cw : Int) : List α :=
  if cw > 0 then l.drop (l.length - cw.toNat)
  else if cw = 0 then l
  else l.drop (-cw).toNat

/-- Python `repr` of a simple string (single-quoted; escaping inside the
string is not needed for the inputs this development evaluates). -/
def pyStrQuote (s : String) : String := "\x27" ++ s ++ "\x27"

/-- Python `repr` of a history key. -/
def reprHKey : HKey → String
  | HKey.str s => pyStrQuote s
  | HKey.int n => toString n

/-- Python `repr` of a history value (turn records print as dicts with the
`prompt` and `response` fields). -/
def reprHVal : HVal → String
  | HVal.vStr s => pyStrQuote s
  | HVal.vInt n => toString n
  | HVal.vTurn t =>
      "\x7b\x27prompt\x27: " ++ pyStrQuote t.prompt ++
      ", \x27response\x27: " ++ pyStrQuote t.response ++ "\x7d"

/-- Python `repr` of one `(key, value)` item of the context list. -/
def reprItem (p : HKey × HVal) : String := "(" ++ reprHKey p.1 ++ ", " ++ reprHVal p.2 ++ ")"

/-- Python `str` of the context slice, as the f-string at line 173 renders
`self.context[-self.context_window:]`. -/
def reprItems (l : HDict) : String :=
  "[" ++ String.intercalate ", " (l.map reprItem) ++ "]"

/-- The fixed instruction text of the f-string at lines 173-179, between the
rendered context slice and the user's text. -/
def instruction_text : String :=
  "\nInstruction: \n    1. Always check the \x27chat history\x27 for context only.\n    2. Return response for current prompt only.\n    3. your knowledge base is the basis for your response.  \n    4. Do not repeat the chat history in your response.\n    prompt: "

/-- The context-augmented request built by the f-string at lines 173-179:
`f"chat history: {slice}..."` followed by the instruction preamble and the
raw user text. -/
def build_prompt (ctxStr text : String) : String :=
  "chat history: " ++ ctxStr ++ instruction_text ++ text

/-- One iteration of the `while True` loop of `start_chat` (lines 171-191):
build the augmented prompt from the context slice, obtain the processed
response (`resp` is the remote call's raw result), record the turn via
`update_history`, and compute whether the loop terminates
(`status == "exit" or prompt.lower() == "exit"`, line 188 — note the check
is on the AUGMENTED prompt, not on the user's `text`).  Returns the updated
client, the status string, and the termination flag; `none` when
`update_history` raises. -/
def chat_step (c : Client) (text : String) (resp : Option String) :
    Option (Client × String × Bool) :=
  let prompt := build_prompt (reprItems (pyTail c.context c.context_window)) text
  let response := process_response resp
  match update_history c prompt response with
  | none => none
  | some (c2, status) =>
      some (c2, status, status == "exit" || pyLower prompt == "exit")

/-- `run_updates c inputs` calls `update_history` once per `(prompt,
response)` pair in `inputs`, threading the client state, and collects the
returned statuses (modelling successive turns of the chat loop as they reach
lines 180-181). -/
def run_updates : Client → List (String × String) → Option (Client × List String)
  | c, [] => some (c, [])
  | c, (p, r) :: rest =>
    match update_history c p r with
    | none => none
    | some (c2, s) =>
      match run_updates c2 rest with
      | none => none
      | some (cfin, ss) => some (cfin, s :: ss)

/-- How `gemini.py`'s `main` (lines 12-25) can observe `start_chat` end:
with a `SystemExit` (the `exit()` call of the graceful termination path,
line 191), with any other exception, or by returning normally. -/
inductive RunOutcome where
  | sysExit : RunOutcome
  | otherFailure : RunOutcome
  | normalReturn : RunOutcome
deriving DecidableEq

/-- Which logging path `main`'s handlers invoke. -/
inductive LogPath where
  | endedSuccessfully : LogPath
  | criticalError : LogPath
  | noHandler : LogPath
deriving DecidableEq

/-- The `try`/`except` dispatch of `main` (`gemini.py` lines 18-25):
`except SystemExit` logs the informational "Chat ended successfully."
message; the bare `except` logs via `log.critical()`; Python tries the
clauses in order, so `SystemExit` never reaches the bare clause. -/
def main_handler : RunOutcome → LogPath
  | RunOutcome.sysExit => LogPath.endedSuccessfully
  | RunOutcome.otherFailure => LogPath.criticalError
  | RunOutcome.normalReturn => LogPath.noHandler

/-- The `history_index` entry of a history dict, when present and an
integer. -/
def historyIndexOf (d : HDict) : Option Int :=
  match dictGet d (HKey.str "history_index") with
  | some (HVal.vInt n) => some n
  | _ => none

/-- The turn entries of a history dict, in insertion order (everything whose
value is a turn record; the two reserved keys carry a string and an
integer). -/
def turnEntriesOf (d : HDict) : HDict :=
  d.filter (fun p => match p.2 with | HVal.vTurn _ => true | _ => false)

/-- The number of turn entries of a history dict. -/
def turnCount (d : HDict) : Nat := (turnEntriesOf d).length

/-- The response recorded in the last context entry, when that entry is a
turn. -/
def lastTurnResponse (ctx : HDict) : Option String :=
  match ctx.getLast? with
  | some (_, HVal.vTurn t) => some t.response
  | _ => none

/-- A turn key as this system creates it for turn index `i`: an `int` key
when the turn was appended in memory (`b = true`), a `str` key holding the
decimal form when it was re-read from the JSON file (`b = false`). -/
def tagKey (b : Bool) (i : Int) : HKey :=
  if b then HKey.int i else HKey.str (toString i)

/-- The turn entries of a history whose turns (with their key tags) are
`l`, keyed consecutively starting at index `i`. -/
def turnEntriesFrom : Int → List (Bool × Turn) → HDict
  | _, [] => []
  | i, x :: rest => (tagKey x.1 i, HVal.vTurn x.2) :: turnEntriesFrom (i + 1) rest

/-- A history dict as this system creates it (the spec's
`ConversationHistory`): the `title` entry, then the `history_index` entry
holding the turn count, then the turns keyed contiguously from 1. -/
def sysHistory (title : String) (l : List (Bool × Turn)) : HDict :=
  (HKey.str "title", HVal.vStr title) ::
  (HKey.str "history_index", HVal.vInt l.length) :: turnEntriesFrom 1 l

/-- A dict key stands for the integer turn index `i`: it is either the
Python int `i` or its decimal string (the form JSON storage gives it). -/
def HKeyDenotes (k : HKey) (i : Int) : Prop :=
  k = HKey.int i ∨ k = HKey.str (toString i)

/-- The turn keys of `d`, read numerically in insertion order, are exactly
`1, 2, ..., turnCount d`: a contiguous range starting at 1. -/
def TurnKeysContiguous (d : HDict) : Prop :=
  ∀ j (h : j < (turnEntriesOf d).length),
    HKeyDenotes ((turnEntriesOf d).get ⟨j, h⟩).1 ((j : Int) + 1)

theorem turnEntriesFrom_length (l : List (Bool × Turn)) (i : Int) :
    (turnEntriesFrom i l).length = l.length := by
  induction l generalizing i with
  | nil => rfl
  | cons x rest ih => simp [turnEntriesFrom, ih]

theorem turnEntriesFrom_append (l : List (Bool × Turn)) (x : Bool × Turn) (i : Int) :
    turnEntriesFrom i (l ++ [x]) =
      turnEntriesFrom i l ++ [(tagKey x.1 (i + l.length), HVal.vTurn x.2)] := by
  induction l generalizing i with
  | nil => simp [turnEntriesFrom]
  | cons y rest ih =>
    have h1 : turnEntriesFrom i ((y :: rest) ++ [x]) =
        (tagKey y.1 i, HVal.vTurn y.2) :: turnEntriesFrom (i + 1) (rest ++ [x]) := rfl
    have h2 : turnEntriesFrom i (y :: rest) =
        (tagKey y.1 i, HVal.vTurn y.2) :: turnEntriesFrom (i + 1) rest := rfl
    rw [h1, h2, ih]
    simp only [List.cons_append, List.length_cons]
    push_cast
    have h3 : i + 1 + (rest.length : Int) = i + ((rest.length : Int) + 1) := by ring
    rw [h3]

theorem tagKey_ne_int (b : Bool) (i m : Int) (h : i ≠ m) : tagKey b i ≠ HKey.int m := by
  cases b <;> simp [tagKey, h]

theorem dictSet_turnEntriesFrom (l : List (Bool × Turn)) (i m : Int) (v : HVal)
    (him : i + l.length ≤ m) :
    dictSet (turnEntriesFrom i l) (HKey.int m) v =
      turnEntriesFrom i l ++ [(HKey.int m, v)] := by
  induction l generalizing i with
  | nil => rfl
  | cons x rest ih =>
    have hlen : i + (↑(rest.length) + 1) ≤ m := by
      have := him
      simp only [List.length_cons] at this
      push_cast at this ⊢
      omega
    have hne : tagKey x.1 i ≠ HKey.int m := tagKey_ne_int _ _ _ (by omega)
    simp only [turnEntriesFrom, dictSet, if_neg hne, List.cons_append]
    rw [ih]
    omega

theorem dictGet_sysHistory_hidx (t : String) (l : List (Bool × Turn)) :
    dictGet (sysHistory t l) (HKey.str "history_index") =
      some (HVal.vInt l.length) := rfl

/-- What one `update_history` call does to a state whose history has the
system-created shape: the `history_index` entry is bumped to `count + 1`,
the new turn is appended under the int key `count + 1`, the coerced question
limit is stored back, and the status is `"exit"` exactly when the new entry
count reaches `questions + history_index`. -/
theorem update_history_sys (c : Client) (t : String) (l : List (Bool × Turn)) (p r : String)
    (hh : c.history = sysHistory t l) :
    update_history c p r = some
      ({ c with questions := coerceQ c.questions,
                history := sysHistory t (l ++ [(true, Turn.mk p r)]),
                context := c.context ++
                  [(HKey.int ((l.length : Int) + 1), HVal.vTurn (Turn.mk p r))] },
       if ((l.length : Int) + 1) = coerceQ c.questions + c.history_index
       then "exit" else "continue") := by
  have hset1 : dictSet (sysHistory t l) (HKey.str "history_index")
      (HVal.vInt ((l.length : Int) + 1)) =
      (HKey.str "title", HVal.vStr t) ::
      (HKey.str "history_index", HVal.vInt ((l.length : Int) + 1)) ::
      turnEntriesFrom 1 l := rfl
  have hset2 : dictSet ((HKey.str "title", HVal.vStr t) ::
      (HKey.str "history_index", HVal.vInt ((l.length : Int) + 1)) ::
      turnEntriesFrom 1 l) (HKey.int ((l.length : Int) + 1))
      (HVal.vTurn (Turn.mk p r)) =
      (HKey.str "title", HVal.vStr t) ::
      (HKey.str "history_index", HVal.vInt ((l.length : Int) + 1)) ::
      (turnEntriesFrom 1 l ++ [(HKey.int ((l.length : Int) + 1), HVal.vTurn (Turn.mk p r))]) := by
    simp only [dictSet, reduceCtorEq, if_false]
    rw [dictSet_turnEntriesFrom]
    omega
  have hsys : sysHistory t (l ++ [(true, Turn.mk p r)]) =
      (HKey.str "title", HVal.vStr t) ::
      (HKey.str "history_index", HVal.vInt ((l.length : Int) + 1)) ::
      (turnEntriesFrom 1 l ++ [(HKey.int ((l.length : Int) + 1), HVal.vTurn (Turn.mk p r))]) := by
    simp only [sysHistory, turnEntriesFrom_append, tagKey, if_true,
      List.length_append, List.length_cons, List.length_nil]
    push_cast
    have h1 : (1 : Int) + (l.length : Int) = (l.length : Int) + 1 := by ring
    rw [h1]
  have hlen : ((HKey.str "title", HVal.vStr t) ::
      (HKey.str "history_index", HVal.vInt ((l.length : Int) + 1)) ::
      (turnEntriesFrom 1 l ++ [(HKey.int ((l.length : Int) + 1), HVal.vTurn (Turn.mk p r))])).length
      = l.length + 3 := by
    simp [turnEntriesFrom_length]
  simp only [update_history, hh, dictGet_sysHistory_hidx, hset1, hset2, hsys, hlen]
  have hcond : (((l.length + 3 : Nat) : Int) - 2 = coerceQ c.questions + c.history_index) ↔
      (((l.length : Int) + 1) = coerceQ c.questions + c.history_index) := by
    push_cast
    constructor <;> intro h <;> omega
  simp only [hcond]
  split <;> rfl

theorem turnEntriesOf_turnEntriesFrom (l : List (Bool × Turn)) (i : Int) :
    turnEntriesOf (turnEntriesFrom i l) = turnEntriesFrom i l := by
  induction l generalizing i with
  | nil => rfl
  | cons x rest ih => simp [turnEntriesOf, turnEntriesFrom, List.filter_cons] at ih ⊢; exact ih _

theorem turnEntriesOf_sysHistory (t : String) (l : List (Bool × Turn)) :
    turnEntriesOf (sysHistory t l) = turnEntriesFrom 1 l := by
  have h := turnEntriesOf_turnEntriesFrom l 1
  simp [turnEntriesOf, sysHistory, List.filter_cons] at h ⊢
  exact h

theorem historyIndexOf_sysHistory (t : String) (l : List (Bool × Turn)) :
    historyIndexOf (sysHistory t l) = some (l.length : Int) := rfl

theorem turnEntriesFrom_get (l : List (Bool × Turn)) (i : Int) (j : Nat)
    (h : j < (turnEntriesFrom i l).length) :
    HKeyDenotes ((turnEntriesFrom i l).get ⟨j, h⟩).1 (i + (j : Int)) := by
  induction l generalizing i j with
  | nil => simp [turnEntriesFrom] at h
  | cons x rest ih =>
    cases j with
    | zero =>
      show HKeyDenotes (tagKey x.1 i) (i + ((0 : Nat) : Int))
      cases hb : x.1 <;> simp [tagKey, HKeyDenotes]
    | succ j' =>
      have h' : j' < (turnEntriesFrom (i + 1) rest).length := by
        simpa [turnEntriesFrom] using h
      have hrec := ih (i + 1) j' h'
      have harith : (i + 1) + (j' : Int) = i + ((Nat.succ j' : Nat) : Int) := by
        push_cast
        ring
      rw [harith] at hrec
      exact hrec

theorem contiguous_of_turnEntriesOf_eq (d : HDict) (l : List (Bool × Turn))
    (heq : turnEntriesOf d = turnEntriesFrom 1 l) : TurnKeysContiguous d := by
  unfold TurnKeysContiguous
  rw [heq]
  intro j h
  have := turnEntriesFrom_get l 1 j h
  rwa [add_comm] at this

theorem sysHistory_contiguous (t : String) (l : List (Bool × Turn)) :
    TurnKeysContiguous (sysHistory t l) :=
  contiguous_of_turnEntriesOf_eq _ l (turnEntriesOf_sysHistory t l)

/-- What any successful `update_history` call does, on an arbitrary state:
configuration fields other than the coerced `questions` are untouched, the
session-start `history_index` snapshot is untouched, the new turn is
appended to the context under the int key `n + 1`, and the status is
computed from the new dict length against the coerced limit. -/
theorem update_history_some (c : Client) (p r : String) (c2 : Client) (s : String)
    (h : update_history c p r = some (c2, s)) :
    c2.model = c.model ∧ c2.questions = coerceQ c.questions ∧
    c2.context_window = c.context_window ∧ c2.chat_title = c.chat_title ∧
    c2.history_index = c.history_index ∧
    (∃ n, dictGet c.history (HKey.str "history_index") = some (HVal.vInt n) ∧
      c2.context = c.context ++ [(HKey.int (n + 1), HVal.vTurn (Turn.mk p r))] ∧
      c2.history = dictSet (dictSet c.history (HKey.str "history_index") (HVal.vInt (n + 1)))
        (HKey.int (n + 1)) (HVal.vTurn (Turn.mk p r))) ∧
    s = (if ((c2.history.length : Int) - 2) = coerceQ c.questions + c.history_index
         then "exit" else "continue") := by
  cases hd : dictGet c.history (HKey.str "history_index") with
  | none => simp [update_history, hd] at h
  | some v =>
    cases v with
    | vStr s' => simp [update_history, hd] at h
    | vTurn t' => simp [update_history, hd] at h
    | vInt n =>
      simp only [update_history, hd] at h
      split at h <;>
        rename_i hcond <;>
        simp only [Option.some.injEq, Prod.mk.injEq] at h <;>
        obtain ⟨hc2, hs⟩ := h <;>
        subst hc2 <;> subst hs <;>
        refine ⟨rfl, rfl, rfl, rfl, rfl, ⟨n, rfl, rfl, rfl⟩, ?_⟩
      · rw [if_pos hcond]
      · rw [if_neg hcond]

theorem length_le_dictSet (d : HDict) (k : HKey) (v : HVal) :
    d.length ≤ (dictSet d k v).length := by
  induction d with
  | nil => simp [dictSet]
  | cons p rest ih =>
    by_cases hk : p.1 = k
    · simp [dictSet, hk]
    · simpa [dictSet, hk] using ih

theorem coerceQ_idem (q : Int) : coerceQ (coerceQ q) = coerceQ q := by
  by_cases h : q < 1 <;> simp [coerceQ, h]

/-- The state in which the stored entry count already strictly exceeds the
(coerced) question budget plus the session-start index — the turn-limit
equality can then never fire again. -/
def OverBudget (c : Client) : Prop :=
  coerceQ c.questions + c.history_index < (c.history.length : Int) - 2

theorem update_overBudget (c : Client) (p r : String) (c2 : Client) (s : String)
    (hob : OverBudget c) (h : update_history c p r = some (c2, s)) :
    s = "continue" ∧ OverBudget c2 := by
  obtain ⟨hm, hq, hcw, hct, hhi, ⟨n, hdg, hctx, hhist⟩, hs⟩ := update_history_some c p r c2 s h
  have hlen : c.history.length ≤ c2.history.length := by
    rw [hhist]
    exact le_trans (length_le_dictSet _ _ _) (length_le_dictSet _ _ _)
  have hcast : (c.history.length : Int) ≤ (c2.history.length : Int) := by exact_mod_cast hlen
  unfold OverBudget at hob
  constructor
  · rw [hs, if_neg]
    omega
  · unfold OverBudget
    rw [hq, hhi, coerceQ_idem]
    omega

theorem run_updates_overBudget (inputs : List (String × String)) :
    ∀ (c : Client) (cfin : Client) (ss : List String), OverBudget c →
      run_updates c inputs = some (cfin, ss) →
      ss.all (fun s => s == "continue") = true := by
  induction inputs with
  | nil =>
    intro c cfin ss hob h
    simp only [run_updates, Option.some.injEq, Prod.mk.injEq] at h
    rw [← h.2]
    rfl
  | cons pr rest ih =>
    intro c cfin ss hob h
    obtain ⟨p, r⟩ := pr
    cases hu : update_history c p r with
    | none => simp [run_updates, hu] at h
    | some cs =>
      obtain ⟨c2, s⟩ := cs
      cases hr : run_updates c2 rest with
      | none => simp [run_updates, hu, hr] at h
      | some out =>
        obtain ⟨cf, ss'⟩ := out
        simp only [run_updates, hu, hr, Option.some.injEq, Prod.mk.injEq] at h
        obtain ⟨hcf, hss⟩ := h
        obtain ⟨hs, hob2⟩ := update_overBudget c p r c2 s hob hu
        rw [← hss]
        have htail := ih c2 cf ss' hob2 hr
        simp [List.all_cons, htail, hs]

theorem run_updates_sys (inputs : List (String × String)) :
    ∀ (c : Client) (t : String) (l : List (Bool × Turn)),
    c.history = sysHistory t l → 1 ≤ c.questions →
    ∃ cfin, run_updates c inputs = some (cfin,
      (List.range inputs.length).map (fun (j : Nat) =>
        if ((l.length : Int) + (j : Int) + 1) = c.questions + c.history_index
        then "exit" else "continue")) := by
  induction inputs with
  | nil =>
    intro c t l hh hq
    exact ⟨c, rfl⟩
  | cons pr rest ih =>
    intro c t l hh hq
    obtain ⟨p, r⟩ := pr
    have hco : coerceQ c.questions = c.questions := by
      unfold coerceQ
      rw [if_neg]
      omega
    have hstep := update_history_sys c t l p r hh
    rw [hco] at hstep
    obtain ⟨cfin, hrun⟩ := ih
      { c with questions := c.questions,
               history := sysHistory t (l ++ [(true, Turn.mk p r)]),
               context := c.context ++
                 [(HKey.int ((l.length : Int) + 1), HVal.vTurn (Turn.mk p r))] }
      t (l ++ [(true, Turn.mk p r)]) rfl hq
    refine ⟨cfin, ?_⟩
    simp only [run_updates, hstep, hrun, List.length_cons]
    dsimp only
    rw [List.range_succ_eq_map, List.map_cons, List.map_map]
    simp only [Option.some.injEq, Prod.mk.injEq, true_and]
    have htail : List.map (fun (j : Nat) =>
          if (((l ++ [(true, Turn.mk p r)]).length : Int) + (j : Int) + 1)
              = c.questions + c.history_index then "exit" else "continue")
          (List.range rest.length)
        = List.map ((fun (j : Nat) =>
            if ((l.length : Int) + (j : Int) + 1) = c.questions + c.history_index
            then "exit" else "continue") ∘ Nat.succ) (List.range rest.length) := by
      apply List.map_congr_left
      intro j hj
      simp only [Function.comp_apply, List.length_append, List.length_cons,
        List.length_nil]
      refine if_congr ?_ rfl rfl
      push_cast
      constructor <;> intro hx <;> omega
    have hhead : (if ((l.length : Int) + ((0 : Nat) : Int) + 1)
            = c.questions + c.history_index then "exit" else "continue")
        = (if ((l.length : Int) + 1) = c.questions + c.history_index
           then "exit" else "continue") := by norm_num
    rw [htail, hhead]

theorem turnCount_sysHistory (t : String) (l : List (Bool × Turn)) :
    turnCount (sysHistory t l) = l.length := by
  unfold turnCount
  rw [turnEntriesOf_sysHistory, turnEntriesFrom_length]

theorem dictGet_sysHistory_title (t : String) (l : List (Bool × Turn)) :
    dictGet (sysHistory t l) (HKey.str "title") = some (HVal.vStr t) := rfl

theorem jsonKey_tagKey (b : Bool) (i : Int) : jsonKey (tagKey b i) = toString i := by
  cases b <;> rfl

theorem save_turnEntriesFrom (l : List (Bool × Turn)) (i : Int) :
    (turnEntriesFrom i l).map (fun p => (HKey.str (jsonKey p.1), p.2))
      = turnEntriesFrom i (l.map (fun x => (false, x.2))) := by
  induction l generalizing i with
  | nil => rfl
  | cons x rest ih =>
    simp only [turnEntriesFrom, List.map_cons, jsonKey_tagKey, ih]
    rfl

/-- `json.dump` of a system-created history: every key becomes a string, so
all turn-key tags flip to `false` (their decimal string form); values and
order are untouched. -/
theorem save_sysHistory (c : Client) (t : String) (l : List (Bool × Turn))
    (hh : c.history = sysHistory t l) :
    save_history c = sysHistory t (l.map (fun x => (false, x.2))) := by
  rw [save_history, hh]
  show (sysHistory t l).map (fun p => (HKey.str (jsonKey p.1), p.2)) = _
  simp only [sysHistory, List.map_cons, save_turnEntriesFrom, List.length_map]
  rfl

/-- Saving the current history and loading the resulting record again under
the same title: `save_history` then `load_history` (a saved record always
has positive size, so the load takes the deserialisation branch). -/
def reload (c : Client) : Client := load_history c (some (save_history c))

theorem turnEntriesFrom_values (l : List (Bool × Turn)) (i : Int) :
    (turnEntriesFrom i l).map (fun p => p.2) = l.map (fun x => HVal.vTurn x.2) := by
  induction l generalizing i with
  | nil => rfl
  | cons x rest ih => simp [turnEntriesFrom, ih]

theorem pyLower_length (s : String) : (pyLower s).length = s.length := by
  cases s with
  | mk data => simp [pyLower, String.length]

/-- The augmented request never lowercases to the literal `"exit"`: it
always begins with the fixed prefix `"chat history: "`, so it is longer
than four characters. -/
theorem build_prompt_ne_exit (ctxStr text : String) :
    (pyLower (build_prompt ctxStr text) == "exit") = false := by
  rw [beq_eq_false_iff_ne]
  intro heq
  have hlen := congrArg String.length heq
  rw [pyLower_length] at hlen
  simp only [build_prompt, String.length_append] at hlen
  have h1 : ("chat history: ").length = 14 := rfl
  have h2 : ("exit").length = 4 := rfl
  rw [h1, h2] at hlen
  omega

/-- The response text recorded by one loop iteration is always
`process_response` of the remote result: the last context entry of the
updated state holds it. -/
theorem chat_step_last (c : Client) (text : String) (resp : Option String) :
    (chat_step c text resp).map (fun x => lastTurnResponse x.1.context)
      = (chat_step c text resp).map (fun _ => some (process_response resp)) := by
  unfold chat_step
  cases hu : update_history c
      (build_prompt (reprItems (pyTail c.context c.context_window)) text)
      (process_response resp) with
  | none => simp [hu]
  | some out =>
    obtain ⟨c2, s⟩ := out
    obtain ⟨-, -, -, -, -, ⟨n, -, hctx, -⟩, -⟩ := update_history_some _ _ _ _ _ hu
    simp [hu, lastTurnResponse, hctx, List.getLast?_concat]

/-- A freshly started session (no stored record) with the default-like
configuration, used as the concrete failing input of claim C1: the user
types "exit" on the first turn. -/
def c1_client : Client := session_start (Client.init "gemini-2.0-flash" 100 15) "demo" none

/-- Claim C1.  The loop's termination comparison at `gemini_tool.py` line 188
lowercases the context-AUGMENTED prompt, never the user-entered text, and
that prompt always starts with "chat history: " — so it never equals "exit"
(first conjunct, for every rendered context and every typed text), and on the
concrete fresh session where the user types "exit" the iteration returns
status "continue" with the termination flag `false` (second conjunct): the
session does NOT transition to Terminated, contradicting both the claim and
the program's own welcome text "Type 'exit' to end the chat.". -/
theorem spec_c1 :
    (∀ ctxStr text : String, (pyLower (build_prompt ctxStr text) == "exit") = false)
    ∧ (chat_step c1_client "exit" (some "hi")).map (fun x => (x.2.1, x.2.2))
        = some ("continue", false) :=
  ⟨build_prompt_ne_exit, by rfl⟩

/-- A freshly started session with `contextWindowSize = 1`, the concrete
input refuting claim C2's length formula. -/
def c2_client : Client := session_start (Client.init "gemini-2.0-flash" 100 1) "demo" none

/-- Claim C2, counterexample.  On a fresh session (`M = 0` stored turns,
`contextWindowSize N = 1`) the slice `self.context[-1:]` has length 1, not
`min(M, N) = 0`: `self.context` also holds the `title` and `history_index`
bookkeeping items, and the slice picks up the `history_index` one. -/
theorem spec_c2_counterexample :
    turnCount c2_client.history = 0 ∧ c2_client.context_window = 1 ∧
    (pyTail c2_client.context c2_client.context_window).length = 1 ∧
    (decide ((pyTail c2_client.context c2_client.context_window).length
        = min (turnCount c2_client.history) 1)) = false :=
  ⟨rfl, rfl, rfl, rfl⟩

/-- Claim C2 as amended.  For a context list of session shape (two
bookkeeping entries followed by the `M` turn entries in insertion order) and
`N ≥ 0`: the slice is the whole list when `N = 0` (Python `[-0:]`), and
otherwise has length `min(M + 2, N)`; whenever `1 ≤ N ≤ M` it is exactly the
`N` most-recently-appended turns in original insertion order; when `N = 0`
it is the ENTIRE item list, bookkeeping entries included; and when `N > M`
it contains all `M` turns preceded by the trailing `min(2, N - M)`
bookkeeping entries (the last conjunct: the slice is the suffix of
`[b1, b2]` left after dropping `M + 2 - N` of it, followed by all the
turns). -/
theorem spec_c2 (b1 b2 : HKey × HVal) (turns : HDict) (N : Int) (hN : 0 ≤ N) :
    (pyTail (b1 :: b2 :: turns) N).length
      = (if N = 0 then turns.length + 2 else min (turns.length + 2) N.toNat)
    ∧ (1 ≤ N → N ≤ (turns.length : Int) →
        pyTail (b1 :: b2 :: turns) N = turns.drop (turns.length - N.toNat))
    ∧ (N = 0 → pyTail (b1 :: b2 :: turns) N = b1 :: b2 :: turns)
    ∧ ((turns.length : Int) < N →
        pyTail (b1 :: b2 :: turns) N
          = [b1, b2].drop (turns.length + 2 - N.toNat) ++ turns) := by
  refine ⟨?_, ?_, ?_, ?_⟩
  · by_cases h0 : N = 0
    · subst h0
      simp [pyTail]
    · have hpos : 0 < N := lt_of_le_of_ne hN (Ne.symm h0)
      simp only [pyTail, if_pos hpos, List.length_drop, List.length_cons, if_neg h0]
      omega
  · intro h1 h2
    have hpos : 0 < N := by omega
    simp only [pyTail, if_pos hpos]
    have hidx : (b1 :: b2 :: turns).length - N.toNat = (turns.length - N.toNat) + 2 := by
      simp only [List.length_cons]
      omega
    rw [hidx]
    rfl
  · intro h0
    subst h0
    simp [pyTail]
  · intro hM
    have hpos : 0 < N := by omega
    simp only [pyTail, if_pos hpos]
    have hlen : (b1 :: b2 :: turns).length = turns.length + 2 := by simp
    rw [hlen]
    rcases Nat.lt_or_ge N.toNat (turns.length + 2) with hk | hk
    · have h1 : turns.length + 2 - N.toNat = 1 := by omega
      rw [h1]
      rfl
    · have h1 : turns.length + 2 - N.toNat = 0 := by omega
      rw [h1]
      rfl

/-- The three turn entries of the witness state for claim C2. -/
def c2w_turns : HDict :=
  [(HKey.int 1, HVal.vTurn (Turn.mk "a" "b")),
   (HKey.int 2, HVal.vTurn (Turn.mk "c" "d")),
   (HKey.int 3, HVal.vTurn (Turn.mk "e" "f"))]

/-- Claim C2, witness, all three regimes at `M = 3`: with `N = 2 ≤ M` the
slice has length 2 and is the last two turns; with `N = 4 > M` it is all
three turns preceded by the trailing bookkeeping entry; with `N = 0` it is
the entire item list. -/
theorem spec_c2_witness :
    ((pyTail ((HKey.str "title", HVal.vStr "demo") ::
        (HKey.str "history_index", HVal.vInt 3) :: c2w_turns) 2).length
      = (if (2 : Int) = 0 then c2w_turns.length + 2
         else min (c2w_turns.length + 2) (2 : Int).toNat))
    ∧ pyTail ((HKey.str "title", HVal.vStr "demo") ::
        (HKey.str "history_index", HVal.vInt 3) :: c2w_turns) 2
      = c2w_turns.drop (c2w_turns.length - (2 : Int).toNat)
    ∧ pyTail ((HKey.str "title", HVal.vStr "demo") ::
        (HKey.str "history_index", HVal.vInt 3) :: c2w_turns) 4
      = [(HKey.str "title", HVal.vStr "demo"),
         (HKey.str "history_index", HVal.vInt 3)].drop
          (c2w_turns.length + 2 - (4 : Int).toNat) ++ c2w_turns
    ∧ pyTail ((HKey.str "title", HVal.vStr "demo") ::
        (HKey.str "history_index", HVal.vInt 3) :: c2w_turns) 0
      = (HKey.str "title", HVal.vStr "demo") ::
        (HKey.str "history_index", HVal.vInt 3) :: c2w_turns :=
  ⟨(spec_c2 (HKey.str "title", HVal.vStr "demo")
      (HKey.str "history_index", HVal.vInt 3) c2w_turns 2 (by decide)).1,
   (spec_c2 (HKey.str "title", HVal.vStr "demo")
      (HKey.str "history_index", HVal.vInt 3) c2w_turns 2 (by decide)).2.1
      (by decide) (by decide),
   (spec_c2 (HKey.str "title", HVal.vStr "demo")
      (HKey.str "history_index", HVal.vInt 3) c2w_turns 4 (by decide)).2.2.2
      (by decide),
   (spec_c2 (HKey.str "title", HVal.vStr "demo")
      (HKey.str "history_index", HVal.vInt 3) c2w_turns 0 (by decide)).2.2.1
      rfl⟩

/-- Claim C3.  From a fresh session (turn index 0): with `questionLimit =
L ≥ 1`, the `j`-th `update_history` call (1-based) returns "exit" exactly
when `j = L` and "continue" otherwise — so the first `L-1` calls continue
and the `L`-th exits (first conjunct, for any number of turns with any
prompts/responses); and with `questionLimit ≤ 0` the limit is coerced to 1
inside the first call, which therefore already returns "exit": exactly one
turn is permitted (second conjunct). -/
theorem spec_c3 (L : Int) (m title p r : String) (cw : Int)
    (inputs : List (String × String)) :
    (1 ≤ L → ∃ cfin, run_updates (session_start (Client.init m L cw) title none) inputs
        = some (cfin, (List.range inputs.length).map (fun (j : Nat) =>
            if ((j : Int) + 1) = L then "exit" else "continue")))
    ∧ (L ≤ 0 → (update_history (session_start (Client.init m L cw) title none) p r).map
        (fun x => x.2) = some "exit") := by
  constructor
  · intro hL
    have hh : (session_start (Client.init m L cw) title none).history
        = sysHistory title [] := rfl
    obtain ⟨cfin, hrun⟩ := run_updates_sys inputs _ title [] hh hL
    refine ⟨cfin, ?_⟩
    rw [hrun]
    refine congrArg some (congrArg (Prod.mk cfin) ?_)
    apply List.map_congr_left
    intro j hj
    have hq : (session_start (Client.init m L cw) title none).questions = L := rfl
    have hhi : (session_start (Client.init m L cw) title none).history_index = 0 := rfl
    rw [hq, hhi]
    norm_num
  · intro hL
    have hstep := update_history_sys (session_start (Client.init m L cw) title none)
      title [] p r rfl
    have hq : coerceQ (session_start (Client.init m L cw) title none).questions = 1 := by
      show coerceQ L = 1
      unfold coerceQ
      rw [if_pos]
      omega
    rw [hq] at hstep
    have hhi : (session_start (Client.init m L cw) title none).history_index = 0 := rfl
    rw [hhi] at hstep
    rw [hstep]
    norm_num

/-- Claim C4.  Saving a system-shaped `ConversationHistory` and loading it
again under the same title reproduces the history exactly, up to JSON
serialisation turning integer turn keys into their decimal strings (the
key-tag flip to `false`): the title entry, the `history_index` value, the
turn values, the turn count and the insertion order are all identical, and
the reloaded turn keys still denote the contiguous range `1..turnIndex`. -/
theorem spec_c4 (c : Client) (t : String) (l : List (Bool × Turn))
    (hh : c.history = sysHistory t l) :
    (reload c).history = sysHistory t (l.map (fun x => (false, x.2)))
    ∧ dictGet (reload c).history (HKey.str "title") = dictGet c.history (HKey.str "title")
    ∧ historyIndexOf (reload c).history = historyIndexOf c.history
    ∧ (turnEntriesOf (reload c).history).map (fun p => p.2)
        = (turnEntriesOf c.history).map (fun p => p.2)
    ∧ turnCount (reload c).history = turnCount c.history
    ∧ TurnKeysContiguous (reload c).history := by
  have hsave := save_sysHistory c t l hh
  have hrel : (reload c).history = sysHistory t (l.map (fun x => (false, x.2))) := by
    have hr0 : (reload c).history = save_history c := rfl
    rw [hr0, hsave]
  refine ⟨hrel, ?_, ?_, ?_, ?_, ?_⟩
  · rw [hrel, hh, dictGet_sysHistory_title, dictGet_sysHistory_title]
  · rw [hrel, hh, historyIndexOf_sysHistory, historyIndexOf_sysHistory, List.length_map]
  · rw [hrel, hh, turnEntriesOf_sysHistory, turnEntriesOf_sysHistory,
      turnEntriesFrom_values, turnEntriesFrom_values, List.map_map]
    rfl
  · rw [hrel, hh, turnCount_sysHistory, turnCount_sysHistory, List.length_map]
  · rw [hrel]
    exact sysHistory_contiguous _ _

/-- A resumed session holding one stored turn, the concrete input for the
C4 and C7 witnesses. -/
def c4w : Client :=
  { Client.init "gemini-2.0-flash" 5 15 with
    chat_title := "demo",
    history := sysHistory "demo" [(true, Turn.mk "a" "b")],
    context := sysHistory "demo" [(true, Turn.mk "a" "b")],
    history_index := 1 }

/-- Claim C4, witness at a one-turn history. -/
theorem spec_c4_witness :
    (reload c4w).history
        = sysHistory "demo" ([(true, Turn.mk "a" "b")].map (fun x => (false, x.2)))
    ∧ dictGet (reload c4w).history (HKey.str "title")
        = dictGet c4w.history (HKey.str "title")
    ∧ historyIndexOf (reload c4w).history = historyIndexOf c4w.history
    ∧ (turnEntriesOf (reload c4w).history).map (fun p => p.2)
        = (turnEntriesOf c4w.history).map (fun p => p.2)
    ∧ turnCount (reload c4w).history = turnCount c4w.history
    ∧ TurnKeysContiguous (reload c4w).history :=
  spec_c4 c4w "demo" [(true, Turn.mk "a" "b")] rfl

/-- Claim C5.  Starting a session whose title has no stored record (or an
empty one — the code treats a missing file and a zero-size file alike)
yields a fresh history: the `title` entry holds the requested title, the
`history_index` entry is 0, and there are no turn entries at all. -/
theorem spec_c5 (m t : String) (q cw : Int) :
    dictGet (session_start (Client.init m q cw) t none).history (HKey.str "title")
        = some (HVal.vStr t)
    ∧ historyIndexOf (session_start (Client.init m q cw) t none).history = some 0
    ∧ turnEntriesOf (session_start (Client.init m q cw) t none).history = []
    ∧ (session_start (Client.init m q cw) t none).history = sysHistory t [] :=
  ⟨rfl, rfl, rfl, rfl⟩

/-- Claim C6.  A falsy (empty/None) remote result is recorded as exactly the
sentinel "No response received.", a truthy one as its text (first two
conjuncts, the `process_response` wrapper of lines 53-57); and every chat
iteration records precisely `process_response` of the remote result as the
new turn's response (third conjunct). -/
theorem spec_c6 :
    process_response none = "No response received."
    ∧ (∀ text : String, process_response (some text) = text)
    ∧ (∀ (c : Client) (text : String) (resp : Option String),
        (chat_step c text resp).map (fun x => lastTurnResponse x.1.context)
          = (chat_step c text resp).map (fun _ => some (process_response resp))) :=
  ⟨rfl, fun _ => rfl, chat_step_last⟩

/-- Claim C7.  On any system-shaped history with `turnIndex = count = k`,
one `update_history` call appends the new turn under key `k + 1` (and
nothing else changes in the turn list), bumps `history_index` from `k` to
exactly `k + 1` (never decrementing it), keeps `turnIndex` equal to the
count of turn entries, and the numerically-read turn keys remain the
contiguous range `[1, turnIndex]`. -/
theorem spec_c7 (c : Client) (t : String) (l : List (Bool × Turn)) (p r : String)
    (hh : c.history = sysHistory t l) :
    ∃ c2 status, update_history c p r = some (c2, status)
      ∧ c2.history = sysHistory t (l ++ [(true, Turn.mk p r)])
      ∧ historyIndexOf c.history = some (l.length : Int)
      ∧ historyIndexOf c2.history = some ((l.length : Int) + 1)
      ∧ turnEntriesOf c2.history
          = turnEntriesOf c.history
            ++ [(HKey.int ((l.length : Int) + 1), HVal.vTurn (Turn.mk p r))]
      ∧ turnCount c2.history = turnCount c.history + 1
      ∧ turnCount c2.history = l.length + 1
      ∧ TurnKeysContiguous c2.history := by
  have hstep := update_history_sys c t l p r hh
  refine ⟨_, _, hstep, rfl, ?_, ?_, ?_, ?_, ?_, ?_⟩
  · rw [hh, historyIndexOf_sysHistory]
  · show historyIndexOf (sysHistory t (l ++ [(true, Turn.mk p r)])) = _
    rw [historyIndexOf_sysHistory]
    congr 1
    simp only [List.length_append, List.length_cons, List.length_nil]
    push_cast
    ring
  · show turnEntriesOf (sysHistory t (l ++ [(true, Turn.mk p r)])) = _
    rw [hh, turnEntriesOf_sysHistory, turnEntriesOf_sysHistory, turnEntriesFrom_append]
    congr 2
    simp only [tagKey, if_true]
    congr 1
    ring_nf
  · show turnCount (sysHistory t (l ++ [(true, Turn.mk p r)])) = _
    rw [hh, turnCount_sysHistory, turnCount_sysHistory]
    simp
  · show turnCount (sysHistory t (l ++ [(true, Turn.mk p r)])) = _
    rw [turnCount_sysHistory]
    simp
  · exact sysHistory_contiguous t (l ++ [(true, Turn.mk p r)])

/-- Claim C7, witness at a one-turn history. -/
theorem spec_c7_witness :
    ∃ c2 status, update_history c4w "p" "r" = some (c2, status)
      ∧ c2.history = sysHistory "demo" ([(true, Turn.mk "a" "b")] ++ [(true, Turn.mk "p" "r")])
      ∧ historyIndexOf c4w.history = some (([(true, Turn.mk "a" "b")].length : Int))
      ∧ historyIndexOf c2.history = some (([(true, Turn.mk "a" "b")].length : Int) + 1)
      ∧ turnEntriesOf c2.history
          = turnEntriesOf c4w.history
            ++ [(HKey.int (([(true, Turn.mk "a" "b")].length : Int) + 1),
                 HVal.vTurn (Turn.mk "p" "r"))]
      ∧ turnCount c2.history = turnCount c4w.history + 1
      ∧ turnCount c2.history = [(true, Turn.mk "a" "b")].length + 1
      ∧ TurnKeysContiguous c2.history :=
  spec_c7 c4w "demo" [(true, Turn.mk "a" "b")] "p" "r" rfl

/-- Claim C8.  `main`'s exception dispatch (`gemini.py` lines 18-25): a
`SystemExit` from the chat (the graceful termination signal raised by
`exit()`) reaches the informational "Chat ended successfully." handler, any
other failure reaches the bare `except` that logs a critical error, and no
outcome reaches both — the two paths are mutually exclusive for a run. -/
theorem spec_c8 :
    main_handler RunOutcome.sysExit = LogPath.endedSuccessfully
    ∧ main_handler RunOutcome.otherFailure = LogPath.criticalError
    ∧ ∀ o : RunOutcome, (main_handler o == LogPath.endedSuccessfully) = false
        ∨ (main_handler o == LogPath.criticalError) = false := by
  refine ⟨rfl, rfl, ?_⟩
  intro o
  cases o with
  | sysExit => right; rfl
  | otherFailure => left; rfl
  | normalReturn => left; rfl

/-- A session configured with `questionLimit = 0`, the concrete input
refuting claim C9's immutability of `questions`. -/
def c9x : Client := session_start (Client.init "gemini-2.0-flash" 0 15) "demo" none

/-- Claim C9, counterexample.  With configured `questionLimit = 0` the first
`update_history` call overwrites `self.questions` with 1 (lines 122-123):
the field does NOT remain unchanged by every subsequent operation. -/
theorem spec_c9_counterexample :
    c9x.questions = 0
    ∧ (update_history c9x "p" "r").map (fun x => x.1.questions) = some 1
    ∧ ((some (1 : Int) == some (0 : Int))) = false :=
  ⟨rfl, rfl, rfl⟩

/-- Claim C9 as amended.  `modelId` and `contextWindowSize` are unchanged by
every operation; `questions` is unchanged by `load_history` and
`session_start`, while `update_history` stores back `coerceQ questions =
max questions 1` — i.e. it too is unchanged whenever the configured value is
at least 1, and a value below 1 is replaced by 1 on the first update (the
documented coercion), after which all three fields stay fixed. -/
theorem spec_c9 : ∀ (c : Client) (stored : Option HDict) (title p r : String),
    (load_history c stored).model = c.model
    ∧ (load_history c stored).questions = c.questions
    ∧ (load_history c stored).context_window = c.context_window
    ∧ (session_start c title stored).model = c.model
    ∧ (session_start c title stored).questions = c.questions
    ∧ (session_start c title stored).context_window = c.context_window
    ∧ (update_history c p r).map (fun x => x.1.model)
        = (update_history c p r).map (fun _ => c.model)
    ∧ (update_history c p r).map (fun x => x.1.context_window)
        = (update_history c p r).map (fun _ => c.context_window)
    ∧ (update_history c p r).map (fun x => x.1.questions)
        = (update_history c p r).map (fun _ => coerceQ c.questions)
    ∧ coerceQ c.questions = max c.questions 1 := by
  intro c stored title p r
  refine ⟨?_, ?_, ?_, ?_, ?_, ?_, ?_, ?_, ?_, ?_⟩
  · cases stored <;> rfl
  · cases stored <;> rfl
  · cases stored <;> rfl
  · cases stored <;> rfl
  · cases stored <;> rfl
  · cases stored <;> rfl
  · cases hu : update_history c p r with
    | none => rfl
    | some out =>
      obtain ⟨c2, s⟩ := out
      obtain ⟨hm, -, -, -, -, -, -⟩ := update_history_some c p r c2 s hu
      simp [hm]
  · cases hu : update_history c p r with
    | none => rfl
    | some out =>
      obtain ⟨c2, s⟩ := out
      obtain ⟨-, -, hcw, -, -, -, -⟩ := update_history_some c p r c2 s hu
      simp [hcw]
  · cases hu : update_history c p r with
    | none => rfl
    | some out =>
      obtain ⟨c2, s⟩ := out
      obtain ⟨-, hq, -, -, -, -, -⟩ := update_history_some c p r c2 s hu
      simp [hq]
  · unfold coerceQ
    split <;> omega

/-- The resumed state refuting claim C10: `questions = -3`,
session-start `history_index = 2`, and 2 stored turns — the stored turn
count (2) already exceeds `questions + history_index = -1`. -/
def c10x : Client :=
  { Client.init "gemini-2.0-flash" (-3) 15 with
    chat_title := "demo",
    history := sysHistory "demo" [(true, Turn.mk "a" "b"), (true, Turn.mk "c" "d")],
    context := sysHistory "demo" [(true, Turn.mk "a" "b"), (true, Turn.mk "c" "d")],
    history_index := 2 }

/-- Claim C10, counterexample.  In `c10x` the stored turn count exceeds
`questions + history_index`, yet the next `update_history` call returns
"exit", not "continue": the coercion of `questions` to 1 raises the
threshold to exactly meet the new count (`3 = 1 + 2`). -/
theorem spec_c10_counterexample :
    ((c10x.history.length : Int) - 2 > c10x.questions + c10x.history_index)
    ∧ (update_history c10x "p" "r").map (fun x => x.2) = some "exit"
    ∧ (decide ((update_history c10x "p" "r").map (fun x => x.2)
        = some "continue")) = false :=
  ⟨by decide, rfl, rfl⟩

/-- Claim C10 as amended.  Whenever the stored entry count already strictly
exceeds the COERCED limit `max(questions, 1)` plus the session-start
`history_index` (the `OverBudget` state), the strict-equality check of line
143 can never fire again: every subsequent successful `update_history` call
returns "continue", however many turns follow. -/
theorem spec_c10 (c : Client) (inputs : List (String × String)) (hob : OverBudget c)
    (statuses : List String)
    (h : (run_updates c inputs).map (fun x => x.2) = some statuses) :
    statuses.all (fun s => s == "continue") = true := by
  cases hr : run_updates c inputs with
  | none => rw [hr] at h; simp at h
  | some out =>
    obtain ⟨cf, ss⟩ := out
    rw [hr] at h
    simp only [Option.map_some', Option.some.injEq] at h
    rw [← h]
    exact run_updates_overBudget inputs c cf ss hob hr

/-- The over-budget state for the C10 witness: limit 1, 2 stored turns,
session-start index 0. -/
def c10w : Client :=
  { Client.init "gemini-2.0-flash" 1 15 with
    chat_title := "demo",
    history := sysHistory "demo" [(true, Turn.mk "a" "b"), (true, Turn.mk "c" "d")],
    context := sysHistory "demo" [(true, Turn.mk "a" "b"), (true, Turn.mk "c" "d")],
    history_index := 0 }

/-- Claim C10, witness: two further calls from the over-budget state both
yield "continue". -/
theorem spec_c10_witness :
    (["continue", "continue"].all (fun s => s == "continue")) = true :=
  spec_c10 c10w [("x", "y"), ("z", "w")] (by unfold OverBudget; decide)
    ["continue", "continue"] (by rfl)

end Gemini
